import Mathlib

/-!
Shallow embedding of `src/src/main/sys_socket.c` (marketmaker-cli).

The C file implements a TCP client socket abstraction: non-blocking connect
with timeout (`socket_connect`), a single-descriptor readiness wait
(`socket_select`), an exact-length send loop (`socket_write`), a raw
select-then-recv primitive (`socket_read`), and two framed readers over a
fixed-capacity read buffer (`socket_read_text`, `socket_read_binary`).

Modelling conventions:
* Bytes are `Nat`, the `err_t` error value is `Int` (`0` = success).
* The operating system is an oracle: each call to an OS primitive consumes
  one "event" describing the outcome of that call (select outcome, how many
  bytes the kernel delivers, `errno` values of failing calls).  The
  kernel-side receive stream is a `List Byte`; a receive of `n` bytes takes
  the first `n` bytes off the stream.  Every real execution corresponds to
  some oracle, and every oracle denotes a possible execution.
* The read buffer `rb->data[0 .. rb->position)` is a `List Byte` (its length
  is `rb->position`); the array size `sizeof(rb->data)` is a parameter `N`.
  The struct declaration lives in the header `sys_socket.h`, which is not
  part of this fragment; per the spec's data model the array reserves one
  extra `filler` slot after `data`, so `rb->data[rb->position] = 0` is in
  bounds for every `position ≤ N`.
* Exhaustion of the receive oracle models `select` timing out on every
  later call (no further data arrives); exhaustion of the send oracle
  models `send` failing with `EAGAIN` on the non-blocking descriptor.
* An `INVALID_SOCKET` descriptor is `none : Option Nat`; a valid descriptor
  `fd` is `some fd`.  Calls to `closesocket` are collected in a list so that
  double-close behaviour is observable.
-/

/-- Bytes are modelled as natural numbers. -/
abbrev Byte := Nat

/-- The `err_t` error value of the source: a signed integer, `0` = success. -/
abbrev Err := Int

/-- Linux `errno` value `ETIMEDOUT`, stored by `socket_select` when the
timeout elapses (source line 225). -/
def ETIMEDOUT : Err := 110

/-- Linux `errno` value `EAGAIN` (compared at source line 67). -/
def EAGAIN : Err := 11

/-- Linux `errno` value `EINPROGRESS` (compared at source line 67). -/
def EINPROGRESS : Err := 115

/-- The sentinel `-1` stored by `socket_read` when `recv` returns `0`,
meaning the peer closed the connection (source line 250). -/
def PEER_CLOSED : Err := -1

/-- The three descriptor sets of `socket_select` (`SelectSet`, source
lines 39-43). -/
inductive SelectSet
  | SEL_READ
  | SEL_WRITE
  | SEL_ERROR
  deriving DecidableEq, Repr

/-- Oracle outcome of one underlying `select(2)` call on one descriptor:
readiness was detected (carrying the pending `SO_ERROR` value the process
would read back), the timeout elapsed with no event, or `select` itself
failed with the given `errno`. -/
inductive SelectOutcome
  | ready (soErr : Err)
  | timedOut
  | selErr (e : Err)
  deriving DecidableEq, Repr

/-- Model of `socket_get_error` (source lines 235-241): `*errp` is first
zeroed, then overwritten with the pending `SO_ERROR` value; the call
reports success when that value is `0`. -/
def socket_get_error (soErr : Err) : Bool × Err :=
  (decide (soErr = 0), soErr)

/-- The `struct timeval` handed to `select` (source lines 217-218). -/
structure Timeval where
  tv_sec : Nat
  tv_usec : Nat
  deriving DecidableEq, Repr

/-- Model of `socket_select` (source lines 193-233).  The first component is
the `timeval` passed to the underlying `select`; the second is the boolean
result `*errp == 0`; the third is the final `*errp`.  Case `1` of the switch
fetches the pending socket error, case `0` signals `ETIMEDOUT`, and the
default case stores `SOCK_ERROR()`. -/
def socket_select (setId : SelectSet) (tmout_ms : Nat) (oc : SelectOutcome) :
    Timeval × Bool × Err :=
  let _ := setId
  let tv : Timeval := ⟨tmout_ms / 1000, tmout_ms % 1000 * 1000⟩
  match oc with
  | .ready soErr => (tv, socket_get_error soErr)
  | .timedOut => (tv, false, ETIMEDOUT)
  | .selErr e => (tv, decide (e = 0), e)

/-- Oracle outcome of one underlying `recv` call: the kernel is willing to
deliver up to `k + 1` bytes of the stream (`recv` returns the minimum of
that, the requested count and the bytes actually pending; `0` pending bytes
means the peer closed), or `recv` failed with the given `errno`. -/
inductive RecvOutcome
  | deliver (k : Nat)
  | rerr (e : Err)
  deriving DecidableEq, Repr

/-- One oracle event consumed by a `socket_read` call: the outcome of its
`select` and, if `select` reports success, the outcome of its `recv`. -/
structure RdEvent where
  sel : SelectOutcome
  rcv : RecvOutcome
  deriving DecidableEq, Repr

/-- An event in which `select` reports readiness with no pending socket
error and the kernel delivers up to `k + 1` bytes. -/
def goodEv (k : Nat) : RdEvent :=
  ⟨.ready 0, .deliver k⟩

/-- Model of `socket_read` (source lines 243-253): wait for readability,
then `recv` up to `nbyte` bytes.  Returns the received bytes, the final
`*errp`, and the remaining kernel stream.  `rc > 0` returns the data with
`*errp` untouched (it is `0` from the successful `socket_select`); `rc == 0`
stores the peer-closed sentinel `-1`; `rc < 0` stores `SOCK_ERROR()`. -/
def socket_read (stream : List Byte) (nbyte : Nat) (tmout_ms : Nat) (ev : RdEvent) :
    List Byte × Err × List Byte :=
  let s := socket_select .SEL_READ tmout_ms ev.sel
  if s.2.1 then
    match ev.rcv with
    | .deliver k =>
      let rc := min (k + 1) (min nbyte stream.length)
      if rc = 0 then ([], PEER_CLOSED, stream)
      else (stream.take rc, 0, stream.drop rc)
    | .rerr e => ([], e, stream)
  else ([], s.2.2, stream)

/-- Model of the `strstr` call at source line 122: offset of the first
occurrence of `pat` in `hay`, both taken as exact byte lists (the C-string
truncation at an embedded NUL is applied by the caller via `cString`). -/
def strstrIdx (pat : List Byte) : List Byte → Option Nat
  | [] => if pat.isPrefixOf [] then some 0 else none
  | b :: t =>
    if pat.isPrefixOf (b :: t) then some 0
    else (strstrIdx pat t).map (· + 1)

/-- The C string `strstr` sees in `rb->data` after `rb->data[rb->position]`
has been set to `'\0'` (source line 121): the buffered bytes up to the first
embedded NUL. -/
def cString (l : List Byte) : List Byte :=
  l.takeWhile (fun b => b != 0)

/-- The refill-and-scan iterations of the `socket_read_text` do-while loop
(source lines 113-134) that start with `rb->position == 0`: refill via
`socket_read` (breaking on error), terminate the buffer, search for the
terminator, append the consumed prefix to the accumulator and either exit
(match found, leftover compacted to the buffer front) or loop.  After the
loop, `*errp != 0` discards the accumulator and a never-allocated
accumulator is returned as `NULL` (modelled as `none` when empty).  The
result is `(data, *errp, rb buffer, kernel stream, remaining events)`. -/
def readTextGo (N : Nat) (term : List Byte) (tmout_ms : Nat) :
    List Byte → List Byte → List RdEvent →
    Option (List Byte) × Err × List Byte × List Byte × List RdEvent
  | _acc, stream, [] => (none, ETIMEDOUT, [], stream, [])
  | acc, stream, ev :: evs =>
    match socket_read stream N tmout_ms ev with
    | (bs, e, stream') =>
      if e ≠ 0 then (none, e, [], stream', evs)
      else
        match strstrIdx term (cString bs) with
        | some i =>
          let n := i + term.length
          let acc' := acc ++ bs.take n
          (if acc' = [] then none else some acc', 0, bs.drop n, stream', evs)
        | none => readTextGo N term tmout_ms (acc ++ bs) stream' evs

/-- Model of `socket_read_text` (source lines 105-143).  `errIn` is the
value of the caller's `*errp` on entry: the source never initialises
`*errp`, so on the path served entirely from the pending buffer (no
`socket_read` performed) the final `if (*errp != 0)` test reads this
incoming value.  The result is
`(data, *errp, rb buffer, kernel stream, remaining events)`. -/
def socket_read_text (N : Nat) (term : List Byte) (errIn : Err)
    (buf0 stream : List Byte) (tmout_ms : Nat) (events : List RdEvent) :
    Option (List Byte) × Err × List Byte × List Byte × List RdEvent :=
  if buf0 = [] then readTextGo N term tmout_ms [] stream events
  else
    match strstrIdx term (cString buf0) with
    | some i =>
      let n := i + term.length
      let acc := buf0.take n
      (if errIn = 0 ∧ acc ≠ [] then some acc else none, errIn, buf0.drop n,
        stream, events)
    | none => readTextGo N term tmout_ms buf0 stream events

/-- The `while (dataSize < expectedSize)` loop of `socket_read_binary`
(source lines 155-169) from an iteration that finds `rb->position == 0`:
refill requesting `min (sizeof(rb->data)) (expectedSize - dataSize)` bytes
(breaking on error), then append the whole buffer to the accumulator and
reset `rb->position` to `0`.  The result is
`(data, *actualSize, *errp, rb buffer, kernel stream, remaining events)`. -/
def readBinGo (N L : Nat) (tmout_ms : Nat) :
    List Byte → List Byte → List RdEvent →
    Option (List Byte) × Nat × Err × List Byte × List Byte × List RdEvent
  | _acc, stream, [] => (none, 0, ETIMEDOUT, [], stream, [])
  | acc, stream, ev :: evs =>
    match socket_read stream (min N (L - acc.length)) tmout_ms ev with
    | (bs, e, stream') =>
      if e ≠ 0 then (none, 0, e, [], stream', evs)
      else
        let acc' := acc ++ bs
        if L ≤ acc'.length then (some acc', acc'.length, 0, [], stream', evs)
        else readBinGo N L tmout_ms acc' stream' evs

/-- Model of `socket_read_binary` (source lines 145-179): `*actualSize` and
`*errp` start at `0`; the loop runs while `dataSize < expectedSize`.  When
the pending buffer already holds at least `expectedSize` bytes the first
iteration consumes it whole and the loop exits with that many bytes.  The
result is
`(data, *actualSize, *errp, rb buffer, kernel stream, remaining events)`. -/
def socket_read_binary (N expectedSize : Nat) (buf0 stream : List Byte)
    (tmout_ms : Nat) (events : List RdEvent) :
    Option (List Byte) × Nat × Err × List Byte × List Byte × List RdEvent :=
  if expectedSize = 0 then (none, 0, 0, buf0, stream, events)
  else if buf0 = [] then readBinGo N expectedSize tmout_ms [] stream events
  else if expectedSize ≤ buf0.length then
    (some buf0, buf0.length, 0, [], stream, events)
  else readBinGo N expectedSize tmout_ms buf0 stream events

/-- Oracle outcome of one underlying `send` call: the kernel accepts up to
`k + 1` bytes (`send` returns the minimum of that and the remaining count),
or `send` returned `0` or a negative value with the given `errno` read back
by `SOCK_ERROR()`. -/
inductive SendEvent
  | sent (k : Nat)
  | serr (e : Err)
  deriving DecidableEq, Repr

/-- The send loop of `socket_write` (source lines 94-101): while `ofs < len`
call `send`; a result `n <= 0` stores `SOCK_ERROR()` and fails, otherwise
`ofs += n`.  The result is `(return value, *errp, final ofs)`.  Oracle
exhaustion while bytes remain models `send` failing with `EAGAIN` on the
non-blocking descriptor. -/
def writeGo (len : Nat) : Nat → List SendEvent → Bool × Err × Nat
  | ofs, [] => if ofs < len then (false, EAGAIN, ofs) else (true, 0, ofs)
  | ofs, ev :: evs =>
    if ofs < len then
      match ev with
      | .sent k => writeGo len (ofs + min (k + 1) (len - ofs)) evs
      | .serr e => (false, e, ofs)
    else (true, 0, ofs)

/-- Model of `socket_write` (source lines 89-103): `*errp` starts at `0`,
then the send loop runs over the whole byte sequence. -/
def socket_write (data : List Byte) (events : List SendEvent) : Bool × Err × Nat :=
  writeGo data.length 0 events

/-- Oracle outcome of the `socket(2)` allocation at source line 63: a fresh
descriptor, or `INVALID_SOCKET` with the given `errno`. -/
inductive SocketRes
  | ok (fd : Nat)
  | fail (e : Err)
  deriving DecidableEq, Repr

/-- Oracle outcome of `socket_set_nonblock` (source lines 255-269): `*errp`
is zeroed, then a failing `fcntl` stores its `errno`. -/
inductive NonblockRes
  | ok
  | fail (e : Err)
  deriving DecidableEq, Repr

/-- Oracle outcome of the non-blocking `connect(2)` call at source line 66:
immediate success (return `>= 0`), or a negative return with the given
`errno`. -/
inductive ConnRes
  | ok
  | fail (e : Err)
  deriving DecidableEq, Repr

/-- Model of `socket_connect` (source lines 53-78).  The result is
`(sock->sockfd, return value, *errp, descriptors passed to closesocket)`.
A `connect` failure with `EINPROGRESS` or `EAGAIN` waits for writability
via `socket_select`; any other failure stores its `errno`.  The final
cleanup closes and invalidates the descriptor whenever `*errp != 0` and a
descriptor was allocated. -/
def socket_connect (tmout_ms : Nat) (sc : SocketRes) (nb : NonblockRes)
    (cn : ConnRes) (sel : SelectOutcome) : Option Nat × Bool × Err × List Nat :=
  match sc with
  | .fail e => (none, decide (e = 0), e, [])
  | .ok fd =>
    let err : Err :=
      match nb with
      | .fail e => e
      | .ok =>
        match cn with
        | .ok => 0
        | .fail e =>
          if e = EINPROGRESS ∨ e = EAGAIN then
            (socket_select .SEL_WRITE tmout_ms sel).2.2
          else e
    if err ≠ 0 then (none, false, err, [fd])
    else (some fd, true, err, [])

/-- Model of `socket_disconnect` (source lines 80-87): `closesocket` is
called when the descriptor is valid; the descriptor field is left unchanged
(the source does not reset it to `INVALID_SOCKET`).  The result is
`(sock->sockfd after the call, descriptors passed to closesocket)`. -/
def socket_disconnect (sockfd : Option Nat) : Option Nat × List Nat :=
  match sockfd with
  | none => (none, [])
  | some fd => (some fd, [fd])

/-- Well-formedness of a select oracle outcome: a failing `select` has a
nonzero `errno` (POSIX guarantees `errno` is set on failure). -/
def selWF : SelectOutcome → Prop
  | .selErr e => e ≠ 0
  | _ => True

/-- Well-formedness of a recv oracle outcome: a failing `recv` has a
nonzero `errno`. -/
def rcvWF : RecvOutcome → Prop
  | .rerr e => e ≠ 0
  | _ => True

/-- Well-formedness of a socket-allocation outcome: a failing `socket` call
has a nonzero `errno`. -/
def scWF : SocketRes → Prop
  | .fail e => e ≠ 0
  | _ => True

/-- Well-formedness of a set-nonblock outcome: a failing `fcntl` has a
nonzero `errno`. -/
def nbWF : NonblockRes → Prop
  | .fail e => e ≠ 0
  | _ => True

/-- Well-formedness of a connect outcome: a negative `connect` return has a
nonzero `errno`. -/
def cnWF : ConnRes → Prop
  | .fail e => e ≠ 0
  | _ => True

/-- The successive byte chunks the kernel delivers for availability choices
`ks`, buffer size `N` and initial stream `s`: chunk `r` is what the
`socket_read` refill of iteration `r` returns.  Mirrors the `rc`
computation of `socket_read`. -/
def chunksOf (N : Nat) : List Byte → List Nat → List (List Byte)
  | _, [] => []
  | s, k :: ks =>
    let n := min (k + 1) (min N s.length)
    s.take n :: chunksOf N (s.drop n) ks

/-- `pat` occurs in `l` as a contiguous block starting at index `p`. -/
def occursAt (l : List Byte) (p : Nat) (pat : List Byte) : Prop :=
  pat <+: l.drop p

instance (l : List Byte) (p : Nat) (pat : List Byte) : Decidable (occursAt l p pat) :=
  inferInstanceAs (Decidable (pat <+: l.drop p))

/-- Total length of a list of chunks. -/
def sumLen (cs : List (List Byte)) : Nat :=
  (cs.map List.length).sum

/-- The per-call read-buffer property exactly as claim C6 states it, for a
result `r` of `socket_read_text`: the final stream is a suffix of the
initial one, and the initial buffer followed by the bytes received from the
stream equals the bytes returned to the caller followed by the final buffer
contents (i.e. `[0, position)` is exactly the received-but-unreturned
tail). -/
def bufferTailProperty (buf0 stream : List Byte)
    (r : Option (List Byte) × Err × List Byte × List Byte × List RdEvent) : Prop :=
  ∃ d, r.2.2.2.1 = stream.drop d ∧
    buf0 ++ stream.take d = (r.1.getD []) ++ r.2.2.1

/-! ### Helper lemmas -/

theorem cString_eq_self {l : List Byte} (h : ∀ b ∈ l, b ≠ 0) : cString l = l := by
  unfold cString
  refine List.takeWhile_eq_self_iff.mpr ?_
  intro b hb
  simpa using h b hb

theorem strstrIdx_sound (pat : List Byte) : ∀ (hay : List Byte) (i : Nat),
    strstrIdx pat hay = some i →
    pat <+: hay.drop i ∧ ∀ j, j < i → ¬ pat <+: hay.drop j := by
  intro hay
  induction hay with
  | nil =>
    intro i h
    simp only [strstrIdx] at h
    split at h
    · next hp =>
      cases h
      exact ⟨List.isPrefixOf_iff_prefix.mp hp, fun j hj => by omega⟩
    · exact absurd h (by simp)
  | cons b t ih =>
    intro i h
    simp only [strstrIdx] at h
    split at h
    · next hp =>
      cases h
      exact ⟨List.isPrefixOf_iff_prefix.mp hp, fun j hj => by omega⟩
    · next hp =>
      obtain ⟨i', hi', rfl⟩ := Option.map_eq_some'.mp h
      obtain ⟨h1, h2⟩ := ih i' hi'
      refine ⟨by simpa using h1, ?_⟩
      intro j hj
      match j with
      | 0 =>
        simpa using fun hc => hp (List.isPrefixOf_iff_prefix.mpr hc)
      | j' + 1 =>
        simpa using h2 j' (by omega)

theorem strstrIdx_complete (pat : List Byte) : ∀ (hay : List Byte) (p : Nat),
    pat <+: hay.drop p → ∃ i, i ≤ p ∧ strstrIdx pat hay = some i := by
  intro hay
  induction hay with
  | nil =>
    intro p hp
    simp only [List.drop_nil] at hp
    have : pat = [] := List.prefix_nil.mp hp
    subst this
    exact ⟨0, Nat.zero_le _, by simp [strstrIdx]⟩
  | cons b t ih =>
    intro p hp
    by_cases h : pat.isPrefixOf (b :: t)
    · exact ⟨0, Nat.zero_le _, by simp [strstrIdx, h]⟩
    · match p with
      | 0 =>
        exact absurd (List.isPrefixOf_iff_prefix.mpr (by simpa using hp)) h
      | p' + 1 =>
        obtain ⟨i', hle, heq⟩ := ih p' (by simpa using hp)
        exact ⟨i' + 1, by omega, by simp [strstrIdx, h, heq]⟩

theorem strstrIdx_none {pat hay : List Byte} (h : strstrIdx pat hay = none)
    (p : Nat) : ¬ pat <+: hay.drop p := by
  intro hp
  obtain ⟨i, _, hi⟩ := strstrIdx_complete pat hay p hp
  rw [h] at hi
  cases hi

theorem prefix_take_of_le {p l : List Byte} (m : Nat) (h : p <+: l)
    (hm : p.length ≤ m) : p <+: l.take m := by
  obtain ⟨t, rfl⟩ := h
  rw [List.take_append_eq_append_take, List.take_of_length_le hm]
  exact List.prefix_append _ _

theorem occursAt_take {l pat : List Byte} {p m : Nat} (h : occursAt l p pat)
    (hm : p + pat.length ≤ m) : occursAt (l.take m) p pat := by
  unfold occursAt at *
  rw [List.drop_take]
  exact prefix_take_of_le _ h (by omega)

theorem occursAt_of_take {l pat : List Byte} {i m : Nat}
    (h : occursAt (l.take m) i pat) : occursAt l i pat := by
  unfold occursAt at *
  rw [List.drop_take] at h
  exact h.trans (List.take_prefix _ _)

theorem occursAt_drop {l pat : List Byte} {n q : Nat} :
    occursAt (l.drop n) q pat ↔ occursAt l (n + q) pat := by
  unfold occursAt
  rw [List.drop_drop]

theorem occursAt_length {l pat : List Byte} {p : Nat} (hpat : pat ≠ [])
    (h : occursAt l p pat) : p + pat.length ≤ l.length := by
  have h1 : pat.length ≤ (l.drop p).length := h.length_le
  have h2 : 1 ≤ pat.length := by
    cases pat with
    | nil => exact absurd rfl hpat
    | cons a t => simp
  rw [List.length_drop] at h1
  omega

theorem sumLen_cons (c : List Byte) (cs : List (List Byte)) :
    sumLen (c :: cs) = c.length + sumLen cs := by
  simp [sumLen]

theorem sumLen_take_le (cs : List (List Byte)) (m : Nat) :
    sumLen (cs.take m) ≤ sumLen cs := by
  have h : sumLen (cs.take m) + sumLen (cs.drop m) = sumLen cs := by
    conv_rhs => rw [← List.take_append_drop m cs]
    simp [sumLen]
  omega

theorem sumLen_chunksOf_nil (N : Nat) (ks : List Nat) :
    sumLen (chunksOf N [] ks) = 0 := by
  induction ks with
  | nil => simp [chunksOf, sumLen]
  | cons k ks ih => simpa [chunksOf, sumLen_cons] using ih

/-- Case analysis of one `socket_read` call: either the select succeeds and
`recv` delivers a nonempty prefix of the stream of at most `nbyte` bytes
with `*errp = 0`, or no bytes are returned and the stream is unchanged. -/
theorem socket_read_cases (s : List Byte) (nbyte tm : Nat) (ev : RdEvent) :
    (∃ rc, 0 < rc ∧ rc ≤ nbyte ∧ rc ≤ s.length ∧
      socket_read s nbyte tm ev = (s.take rc, 0, s.drop rc)) ∨
    ((socket_read s nbyte tm ev).1 = [] ∧ (socket_read s nbyte tm ev).2.2 = s) := by
  rcases ev with ⟨sel, rcv⟩
  cases sel with
  | ready soErr =>
    by_cases hso : soErr = 0
    · subst hso
      cases rcv with
      | deliver k =>
        by_cases hrc : min (k + 1) (min nbyte s.length) = 0
        · right; simp [socket_read, socket_select, socket_get_error, hrc]
        · left
          refine ⟨min (k + 1) (min nbyte s.length), by omega, by omega, by omega, ?_⟩
          simp [socket_read, socket_select, socket_get_error, hrc]
      | rerr e =>
        right; simp [socket_read, socket_select, socket_get_error]
    · right; simp [socket_read, socket_select, socket_get_error, hso]
  | timedOut =>
    right; simp [socket_read, socket_select]
  | selErr e =>
    by_cases he : e = 0
    · subst he
      cases rcv with
      | deliver k =>
        by_cases hrc : min (k + 1) (min nbyte s.length) = 0
        · right; simp [socket_read, socket_select, hrc]
        · left
          refine ⟨min (k + 1) (min nbyte s.length), by omega, by omega, by omega, ?_⟩
          simp [socket_read, socket_select, hrc]
      | rerr e =>
        right; simp [socket_read, socket_select]
    · right; simp [socket_read, socket_select, he]

/-! ### Claim theorems -/

/-- C8: for every timeout in milliseconds, `socket_select` passes the
timeout to the underlying wait primitive split as whole seconds
(`tmout_ms / 1000`) plus the microsecond remainder
(`tmout_ms % 1000 * 1000`), and maps the outcomes: readiness detected
reports the pending socket-level error (0 if none), an elapsed timeout
reports `ETIMEDOUT`, and a failure of the wait primitive itself propagates
the underlying system error. -/
theorem socket_select_split_and_mapping (setId : SelectSet) (tm : Nat) (s e : Err) :
    socket_select setId tm (SelectOutcome.ready s) =
      (⟨tm / 1000, tm % 1000 * 1000⟩, decide (s = 0), s) ∧
    socket_select setId tm SelectOutcome.timedOut =
      (⟨tm / 1000, tm % 1000 * 1000⟩, false, ETIMEDOUT) ∧
    socket_select setId tm (SelectOutcome.selErr e) =
      (⟨tm / 1000, tm % 1000 * 1000⟩, decide (e = 0), e) :=
  ⟨rfl, rfl, rfl⟩

/-- C10: `socket_read_binary` with expected length `0` performs no receive
call (the oracle is not consumed), leaves the read buffer and stream
unchanged, sets `*errp` to `0` and `*actualSize` to `0`, and returns an
absent (`NULL`) buffer. -/
theorem readBinary_zero_length (N : Nat) (buf0 stream : List Byte) (tm : Nat)
    (evs : List RdEvent) :
    socket_read_binary N 0 buf0 stream tm evs = (none, 0, 0, buf0, stream, evs) :=
  rfl

/-- C3 counterexample: `socket_disconnect` does not reset the descriptor
field to the invalid sentinel — after disconnecting a handle holding
descriptor `5` the field still holds `5`, and a second `disconnect` issues
a second `closesocket(5)` instead of being a no-op. -/
theorem disconnect_no_reset_cex :
    (socket_disconnect (some 5)).1 ≠ none ∧
    (socket_disconnect ((socket_disconnect (some 5)).1)).2 = [5] := by
  decide

/-- C3 amended: `socket_disconnect` closes the descriptor of a valid handle
but leaves the descriptor field unchanged (it is not reset to the invalid
sentinel); `disconnect` on an invalid handle is a no-op, so disconnect
twice is equivalent to once only for invalid handles, while on a valid
handle the second call closes the same descriptor a second time. -/
theorem disconnect_close_behavior (fd : Nat) :
    socket_disconnect none = (none, []) ∧
    socket_disconnect (some fd) = (some fd, [fd]) ∧
    (socket_disconnect ((socket_disconnect (some fd)).1)).2 = [fd] :=
  ⟨rfl, rfl, rfl⟩

/-- C4 (code bug): `socket_read_text` never initialises `*errp`.  On the
path served entirely from the pending buffer (here buffer `"PING\n"`,
terminator `"\n"`, no receive performed) the final `if (*errp != 0)` reads
the caller's stale incoming value: with incoming `*errp = 5` the matched
data is freed and `NULL` is returned with `*errp` still `5`, although the
identical call with a clean incoming `*errp = 0` succeeds with the data. -/
theorem readText_stale_errp_bug :
    socket_read_text 8 [10] 5 [80, 73, 78, 71, 10] [] 0 [] = (none, 5, [], [], []) ∧
    socket_read_text 8 [10] 0 [80, 73, 78, 71, 10] [] 0 [] =
      (some [80, 73, 78, 71, 10], 0, [], [], []) := by
  decide

/-- C7: for the raw read primitive `socket_read`, a zero-byte result from
the underlying receive stores the distinct peer-closed sentinel `-1` (not a
generic system error), a negative result stores the system `errno`, and —
for well-formed outcomes (failing calls have nonzero `errno`) — the
returned byte count is `0` exactly in the error cases, where the error
value is nonzero. -/
theorem socket_read_error_mapping (stream : List Byte) (nbyte tm k : Nat) (e : Err) :
    (min (k + 1) (min nbyte stream.length) = 0 →
      socket_read stream nbyte tm ⟨.ready 0, .deliver k⟩ = ([], PEER_CLOSED, stream)) ∧
    (socket_read stream nbyte tm ⟨.ready 0, .rerr e⟩ = ([], e, stream)) ∧
    (∀ ev : RdEvent, selWF ev.sel → rcvWF ev.rcv →
      ((socket_read stream nbyte tm ev).1 = [] ↔ (socket_read stream nbyte tm ev).2.1 ≠ 0)) := by
  refine ⟨?_, ?_, ?_⟩
  · intro h
    simp [socket_read, socket_select, socket_get_error, h]
  · simp [socket_read, socket_select, socket_get_error]
  · rintro ⟨sel, rcv⟩ hsel hrcv
    cases sel with
    | ready soErr =>
      by_cases hso : soErr = 0
      · subst hso
        cases rcv with
        | deliver kk =>
          by_cases hrc : min (kk + 1) (min nbyte stream.length) = 0
          · simp [socket_read, socket_select, socket_get_error, hrc, PEER_CLOSED]
          · have hne : stream.take (min (kk + 1) (min nbyte stream.length)) ≠ [] := by
              intro hnil
              have hl := congrArg List.length hnil
              rw [List.length_take] at hl
              simp only [List.length_nil] at hl
              omega
            simp [socket_read, socket_select, socket_get_error, hrc, hne]
        | rerr e2 =>
          simp only [rcvWF] at hrcv
          simp [socket_read, socket_select, socket_get_error, hrcv]
      · simp [socket_read, socket_select, socket_get_error, hso]
    | timedOut =>
      simp [socket_read, socket_select, ETIMEDOUT]
    | selErr e2 =>
      simp only [selWF] at hsel
      simp [socket_read, socket_select, hsel]

/-- C7 witness: concrete instances of the two mapping conjuncts of
`socket_read_error_mapping`. -/
theorem socket_read_error_mapping_witness :
    socket_read [] 4 0 ⟨.ready 0, .deliver 3⟩ = ([], PEER_CLOSED, []) ∧
    socket_read [1] 4 0 ⟨.ready 0, .rerr 9⟩ = ([], 9, [1]) :=
  ⟨(socket_read_error_mapping [] 4 0 3 9).1 (by decide),
   (socket_read_error_mapping [1] 4 0 3 9).2.1⟩

/-- The send loop either transmits exactly `len` bytes and succeeds, or
fails having transmitted strictly fewer. -/
theorem writeGo_spec : ∀ (evs : List SendEvent) (len ofs : Nat), ofs ≤ len →
    writeGo len ofs evs = (true, 0, len) ∨
    ((writeGo len ofs evs).1 = false ∧ (writeGo len ofs evs).2.2 < len) := by
  intro evs
  induction evs with
  | nil =>
    intro len ofs h
    by_cases hlt : ofs < len
    · right; simp [writeGo, hlt]
    · left
      have : ofs = len := by omega
      subst this
      simp [writeGo, hlt]
  | cons ev evs ih =>
    intro len ofs h
    by_cases hlt : ofs < len
    · cases ev with
      | sent k =>
        have hh := ih len (ofs + min (k + 1) (len - ofs)) (by omega)
        simpa [writeGo, hlt] using hh
      | serr e =>
        right; simp [writeGo, hlt]
    · left
      have : ofs = len := by omega
      subst this
      simp [writeGo, hlt]

/-- C9: `socket_write` loops until all bytes are sent or an error occurs:
it returns success exactly when the full length was transmitted (with
`*errp = 0`), any failure leaves strictly fewer bytes transmitted, a
partial send advances the offset and continues the loop, and a send
returning zero or negative makes the loop fail immediately with the
underlying system error surfaced in `*errp`. -/
theorem socket_write_exact (data : List Byte) (events : List SendEvent) :
    ((socket_write data events).1 = true ↔
      (socket_write data events).2.1 = 0 ∧ (socket_write data events).2.2 = data.length) ∧
    ((socket_write data events).1 = false → (socket_write data events).2.2 < data.length) ∧
    (∀ ofs k evs, ofs < data.length →
      writeGo data.length ofs (SendEvent.sent k :: evs) =
        writeGo data.length (ofs + min (k + 1) (data.length - ofs)) evs) ∧
    (∀ ofs e evs, ofs < data.length →
      writeGo data.length ofs (SendEvent.serr e :: evs) = (false, e, ofs)) := by
  have hs := writeGo_spec events data.length 0 (Nat.zero_le _)
  refine ⟨?_, ?_, ?_, ?_⟩
  · unfold socket_write
    rcases hs with h | ⟨h1, h2⟩
    · rw [h]; simp
    · simp only [h1]
      constructor
      · intro hc; cases hc
      · rintro ⟨_, h4⟩; omega
  · intro h
    unfold socket_write at *
    rcases hs with hh | ⟨h1, h2⟩
    · rw [hh] at h; cases h
    · exact h2
  · intro ofs k evs h; simp [writeGo, h]
  · intro ofs e evs h; simp [writeGo, h]

/-- C9 witness: a concrete run of `socket_write_exact` — three bytes sent
across two partial sends succeed. -/
theorem socket_write_exact_witness :
    (socket_write [1, 2, 3] [SendEvent.sent 1, SendEvent.sent 99]).1 = true :=
  (socket_write_exact [1, 2, 3] [SendEvent.sent 1, SendEvent.sent 99]).1.mpr (by decide)

/-- C5: for every target and timeout, when `socket_connect` returns (under
well-formed oracle outcomes, i.e. failing system calls have nonzero
`errno`), either it reports success with a valid descriptor in the handle,
`*errp = 0` and nothing closed, or it reports failure with the handle reset
to the invalid sentinel, a nonzero `*errp`, and — whenever a descriptor had
been allocated — exactly that descriptor closed before returning. -/
theorem connect_allornothing (tm : Nat) (sc : SocketRes) (nb : NonblockRes)
    (cn : ConnRes) (sel : SelectOutcome)
    (h1 : scWF sc) (h2 : nbWF nb) (h3 : cnWF cn) (h4 : selWF sel) :
    ((socket_connect tm sc nb cn sel).2.1 = true →
      (socket_connect tm sc nb cn sel).1.isSome = true ∧
      (socket_connect tm sc nb cn sel).2.2.1 = 0 ∧
      (socket_connect tm sc nb cn sel).2.2.2 = []) ∧
    ((socket_connect tm sc nb cn sel).2.1 = false →
      (socket_connect tm sc nb cn sel).1 = none ∧
      (socket_connect tm sc nb cn sel).2.2.1 ≠ 0 ∧
      ∀ fd, sc = SocketRes.ok fd → (socket_connect tm sc nb cn sel).2.2.2 = [fd]) := by
  cases sc with
  | fail e =>
    simp only [scWF] at h1
    constructor
    · intro h
      simp [socket_connect, h1] at h
    · intro _
      refine ⟨rfl, by simpa [socket_connect] using h1, ?_⟩
      intro fd hfd
      cases hfd
  | ok fd =>
    cases nb with
    | fail e =>
      simp only [nbWF] at h2
      constructor
      · intro h
        simp [socket_connect, h2] at h
      · intro _
        simp [socket_connect, h2]
    | ok =>
      cases cn with
      | ok =>
        constructor
        · intro _
          simp [socket_connect]
        · intro h
          simp [socket_connect] at h
      | fail e =>
        simp only [cnWF] at h3
        by_cases hep : e = EINPROGRESS ∨ e = EAGAIN
        · cases sel with
          | ready soErr =>
            by_cases hso : soErr = 0
            · subst hso
              constructor
              · intro _
                simp [socket_connect, hep, socket_select, socket_get_error]
              · intro h
                simp [socket_connect, hep, socket_select, socket_get_error] at h
            · constructor
              · intro h
                simp [socket_connect, hep, socket_select, socket_get_error, hso] at h
              · intro _
                simp [socket_connect, hep, socket_select, socket_get_error, hso]
          | timedOut =>
            constructor
            · intro h
              simp [socket_connect, hep, socket_select, ETIMEDOUT] at h
            · intro _
              simp [socket_connect, hep, socket_select, ETIMEDOUT]
          | selErr e2 =>
            simp only [selWF] at h4
            constructor
            · intro h
              simp [socket_connect, hep, socket_select, h4] at h
            · intro _
              simp [socket_connect, hep, socket_select, h4]
        · constructor
          · intro h
            simp [socket_connect, hep, h3] at h
          · intro _
            simp [socket_connect, hep, h3]

/-- C5 witness: connect through the in-progress path with a ready, error
free readiness wait succeeds with the descriptor retained and nothing
closed. -/
theorem connect_allornothing_witness :
    (socket_connect 100 (SocketRes.ok 7) NonblockRes.ok (ConnRes.fail 115)
      (SelectOutcome.ready 0)).1.isSome = true ∧
    (socket_connect 100 (SocketRes.ok 7) NonblockRes.ok (ConnRes.fail 115)
      (SelectOutcome.ready 0)).2.2.1 = 0 ∧
    (socket_connect 100 (SocketRes.ok 7) NonblockRes.ok (ConnRes.fail 115)
      (SelectOutcome.ready 0)).2.2.2 = [] :=
  (connect_allornothing 100 (SocketRes.ok 7) NonblockRes.ok (ConnRes.fail 115)
    (SelectOutcome.ready 0) trivial trivial
    (by show (115 : Err) ≠ 0; decide) trivial).1 (by decide)


/-- Invariant of the binary refill loop: started with fewer accumulated
bytes than expected, it always exits with an empty read buffer and the
final stream a suffix of the initial one, and either `*errp = 0` with the
accumulated bytes extended by exactly the stream bytes consumed, totalling
the expected length, or a failure with no data and `*actualSize = 0`. -/
theorem readBinGo_spec (N L tm : Nat) : ∀ (evs : List RdEvent) (acc s : List Byte),
    acc.length < L →
    ∃ res actual err s' evs' d,
      readBinGo N L tm acc s evs = (res, actual, err, [], s', evs') ∧
      s' = s.drop d ∧
      (err = 0 → res = some (acc ++ s.take d) ∧ actual = L ∧
        (acc ++ s.take d).length = L) ∧
      (err ≠ 0 → res = none ∧ actual = 0) := by
  intro evs
  induction evs with
  | nil =>
    intro acc s hacc
    refine ⟨none, 0, ETIMEDOUT, s, [], 0, rfl, by simp, ?_, fun _ => ⟨rfl, rfl⟩⟩
    intro h
    exact absurd h (by decide)
  | cons ev evs ih =>
    intro acc s hacc
    rcases socket_read_cases s (min N (L - acc.length)) tm ev with
      ⟨rc, hrc0, hrcn, hrcs, heq⟩ | ⟨h1, h2⟩
    · have hlen : (acc ++ s.take rc).length = acc.length + rc := by
        rw [List.length_append, List.length_take]
        omega
      by_cases hL : L ≤ acc.length + rc
      · have hexact : acc.length + rc = L := by omega
        refine ⟨some (acc ++ s.take rc), (acc ++ s.take rc).length, 0, s.drop rc, evs, rc,
          ?_, rfl, ?_, ?_⟩
        · simp only [readBinGo, heq]
          rw [if_neg (by simp)]
          rw [if_pos (by omega)]
        · intro _
          exact ⟨rfl, by omega, by omega⟩
        · intro h
          exact absurd rfl h
      · have hacc2 : (acc ++ s.take rc).length < L := by omega
        obtain ⟨res, actual, err, s', evs', d, heq2, hs', hsucc, hfail⟩ :=
          ih (acc ++ s.take rc) (s.drop rc) hacc2
        have hcomp : acc ++ s.take (rc + d) = (acc ++ s.take rc) ++ (s.drop rc).take d := by
          rw [List.take_add, List.append_assoc]
        refine ⟨res, actual, err, s', evs', rc + d, ?_, ?_, ?_, hfail⟩
        · simp only [readBinGo, heq]
          rw [if_neg (by simp)]
          rw [if_neg (by omega)]
          exact heq2
        · rw [hs', List.drop_drop, Nat.add_comm]
        · intro h
          obtain ⟨hres, hact, hlen2⟩ := hsucc h
          exact ⟨by rw [hcomp]; exact hres, hact, by rw [hcomp]; exact hlen2⟩
    · rcases hrd : socket_read s (min N (L - acc.length)) tm ev with ⟨bs, e2, s2⟩
      rw [hrd] at h1 h2
      obtain rfl : bs = [] := h1
      obtain rfl : s = s2 := h2.symm
      by_cases he : e2 = 0
      · subst he
        obtain ⟨res, actual, err, s', evs', d, heq2, hs', hsucc, hfail⟩ := ih acc s hacc
        refine ⟨res, actual, err, s', evs', d, ?_, hs', hsucc, hfail⟩
        simp only [readBinGo, hrd]
        rw [if_neg (by simp), List.append_nil]
        rw [if_neg (by omega)]
        exact heq2
      · refine ⟨none, 0, e2, s, evs, 0, ?_, by simp, ?_, fun _ => ⟨rfl, rfl⟩⟩
        · simp only [readBinGo, hrd]
          rw [if_pos he]
        · intro h
          exact absurd h he

/-- C2 counterexample: with 10 bytes already pending in the read buffer at
call start, `socket_read_binary` with expected length 3 succeeds reporting
an actual length of 10, not 3 — the claim that it never succeeds with an
actual length different from the expected one is false. -/
theorem readBinary_pending_overshoot_cex :
    socket_read_binary 16 3 [7, 7, 7, 7, 7, 7, 7, 7, 7, 7] [] 0 [] =
      (some [7, 7, 7, 7, 7, 7, 7, 7, 7, 7], 10, 0, [], [], []) ∧ (10 : Nat) ≠ 3 := by
  decide

/-- C2 amended: `socket_read_binary` either fails with no buffer and actual
length `0`, or succeeds with actual length `max L (initial pending bytes)`:
exactly the expected length whenever the bytes already pending in the read
buffer at call start do not exceed `L` (in particular whenever the buffer
starts empty), but the full pending count when that exceeds `L`. -/
theorem readBinary_exact_or_fail (N L : Nat) (buf0 stream : List Byte) (tm : Nat)
    (evs : List RdEvent) :
    ((socket_read_binary N L buf0 stream tm evs).2.2.1 ≠ 0 →
      (socket_read_binary N L buf0 stream tm evs).1 = none ∧
      (socket_read_binary N L buf0 stream tm evs).2.1 = 0) ∧
    ((socket_read_binary N L buf0 stream tm evs).2.2.1 = 0 → 0 < L →
      ∃ bs, (socket_read_binary N L buf0 stream tm evs).1 = some bs ∧
        (socket_read_binary N L buf0 stream tm evs).2.1 = bs.length ∧
        bs.length = max L buf0.length) := by
  by_cases hL : L = 0
  · subst hL
    exact ⟨fun h => absurd rfl h, fun _ h => absurd h (by omega)⟩
  · by_cases hb : buf0 = []
    · subst hb
      obtain ⟨res, actual, err, s', evs', d, heq, _, hsucc, hfail⟩ :=
        readBinGo_spec N L tm evs [] stream (by simp; omega)
      have hun : socket_read_binary N L [] stream tm evs = (res, actual, err, [], s', evs') := by
        simp only [socket_read_binary, if_neg hL, if_pos rfl]
        exact heq
      rw [hun]
      refine ⟨hfail, ?_⟩
      intro h _
      obtain ⟨hres, hact, hlen⟩ := hsucc h
      refine ⟨[] ++ stream.take d, hres, ?_, ?_⟩
      · rw [hact, ← hlen]
      · rw [hlen]
        simp
    · by_cases hble : L ≤ buf0.length
      · have hun : socket_read_binary N L buf0 stream tm evs =
            (some buf0, buf0.length, 0, [], stream, evs) := by
          simp only [socket_read_binary, if_neg hL, if_neg hb, if_pos hble]
        rw [hun]
        refine ⟨fun h => absurd rfl h, ?_⟩
        intro _ _
        exact ⟨buf0, rfl, rfl, (Nat.max_eq_right hble).symm⟩
      · obtain ⟨res, actual, err, s', evs', d, heq, _, hsucc, hfail⟩ :=
          readBinGo_spec N L tm evs buf0 stream (by omega)
        have hun : socket_read_binary N L buf0 stream tm evs =
            (res, actual, err, [], s', evs') := by
          simp only [socket_read_binary, if_neg hL, if_neg hb, if_neg hble]
          exact heq
        rw [hun]
        refine ⟨hfail, ?_⟩
        intro h _
        obtain ⟨hres, hact, hlen⟩ := hsucc h
        refine ⟨buf0 ++ stream.take d, hres, ?_, ?_⟩
        · rw [hact, ← hlen]
        · rw [hlen]
          exact (Nat.max_eq_left (by omega)).symm

/-- C2 witness: a concrete run of `readBinary_exact_or_fail` — expected
length 3, empty initial buffer, one delivery of 4 pending stream bytes:
the call succeeds with exactly 3 bytes. -/
theorem readBinary_exact_or_fail_witness :
    ∃ bs, (socket_read_binary 4 3 [] [1, 2, 3, 4] 0 [goodEv 9]).1 = some bs ∧
      (socket_read_binary 4 3 [] [1, 2, 3, 4] 0 [goodEv 9]).2.1 = bs.length ∧
      bs.length = max 3 ([] : List Byte).length :=
  (readBinary_exact_or_fail 4 3 [] [1, 2, 3, 4] 0 [goodEv 9]).2 (by decide) (by decide)

/-- Invariant of the text refill-and-scan loop: the final stream is a
suffix of the initial one, the accumulated-and-compacted bytes account
exactly for the initial accumulator plus the stream bytes consumed, a
successful result returns exactly the accumulated bytes, a failure exits
with an empty buffer and no data, and the final buffer never exceeds the
array size. -/
theorem readTextGo_inv (N : Nat) (term : List Byte) (tm : Nat) :
    ∀ (evs : List RdEvent) (acc s : List Byte),
    ∃ res err buf' s' evs' d g,
      readTextGo N term tm acc s evs = (res, err, buf', s', evs') ∧
      s' = s.drop d ∧
      g ++ buf' = acc ++ s.take d ∧
      (∀ bs, res = some bs → bs = g) ∧
      (err ≠ 0 → buf' = [] ∧ res = none) ∧
      buf'.length ≤ N := by
  intro evs
  induction evs with
  | nil =>
    intro acc s
    refine ⟨none, ETIMEDOUT, [], s, [], 0, acc, rfl, by simp, by simp, ?_, ?_, by simp⟩
    · intro bs h
      cases h
    · intro _
      exact ⟨rfl, rfl⟩
  | cons ev evs ih =>
    intro acc s
    rcases socket_read_cases s N tm ev with ⟨rc, hrc0, hrcn, hrcs, heq⟩ | ⟨h1, h2⟩
    · rcases hm : strstrIdx term (cString (s.take rc)) with _ | i
      · obtain ⟨res, err, buf', s', evs', d, g, heq2, hs', hg, hres, herr, hbuf⟩ :=
          ih (acc ++ s.take rc) (s.drop rc)
        refine ⟨res, err, buf', s', evs', rc + d, g, ?_, ?_, ?_, hres, herr, hbuf⟩
        · simp only [readTextGo, heq]
          rw [if_neg (by simp), hm]
          exact heq2
        · rw [hs', List.drop_drop, Nat.add_comm]
        · rw [hg, List.take_add, ← List.append_assoc]
      · refine ⟨if acc ++ (s.take rc).take (i + term.length) = [] then none
            else some (acc ++ (s.take rc).take (i + term.length)), 0,
          (s.take rc).drop (i + term.length), s.drop rc, evs, rc,
          acc ++ (s.take rc).take (i + term.length), ?_, rfl, ?_, ?_, ?_, ?_⟩
        · simp only [readTextGo, heq]
          rw [if_neg (by simp), hm]
        · rw [List.append_assoc, List.take_append_drop]
        · intro bs h
          split at h
          · cases h
          · cases h
            rfl
        · intro h
          exact absurd rfl h
        · rw [List.length_drop, List.length_take]
          omega
    · rcases hrd : socket_read s N tm ev with ⟨bs, e2, s2⟩
      rw [hrd] at h1 h2
      obtain rfl : bs = [] := h1
      obtain rfl : s = s2 := h2.symm
      by_cases he : e2 = 0
      · subst he
        rcases hm : strstrIdx term (cString []) with _ | i
        · obtain ⟨res, err, buf', s', evs', d, g, heq2, hs', hg, hres, herr, hbuf⟩ :=
            ih acc s
          refine ⟨res, err, buf', s', evs', d, g, ?_, hs', hg, hres, herr, hbuf⟩
          simp only [readTextGo, hrd]
          rw [if_neg (by simp), hm, List.append_nil]
          exact heq2
        · refine ⟨if acc ++ ([] : List Byte).take (i + term.length) = [] then none
              else some (acc ++ ([] : List Byte).take (i + term.length)), 0,
            ([] : List Byte).drop (i + term.length), s, evs, 0,
            acc ++ ([] : List Byte).take (i + term.length), ?_, by simp, by simp, ?_, ?_, by simp⟩
          · simp only [readTextGo, hrd]
            rw [if_neg (by simp), hm]
          · intro bs h
            split at h
            · cases h
            · cases h
              rfl
          · intro h
            exact absurd rfl h
      · refine ⟨none, e2, [], s, evs, 0, acc, ?_, by simp, by simp, ?_, ?_, by simp⟩
        · simp only [readTextGo, hrd]
          rw [if_pos he]
        · intro bs h
          cases h
        · intro _
          exact ⟨rfl, rfl⟩

/-- C6 counterexample: terminator `"\n"`, empty initial buffer, stream
`[65, 66]` delivered whole, then a timeout.  Both stream bytes are received
and consumed into the accumulator, the call fails discarding them, and the
final buffer is empty — so the bytes received but never returned to the
caller are not in the buffer, refuting the claim for failed calls. -/
theorem readBuffer_tail_cex :
    ¬ bufferTailProperty [] [65, 66]
      (socket_read_text 4 [10] 0 [] [65, 66] 0 [goodEv 9]) := by
  intro hprop
  obtain ⟨d, h1, h2⟩ := hprop
  have hr : socket_read_text 4 [10] 0 [] [65, 66] 0 [goodEv 9] =
      (none, 110, [], [], []) := by decide
  rw [hr] at h1 h2
  simp only [Option.getD_none, List.nil_append, List.append_nil] at h1 h2
  have hlen := congrArg List.length h1
  simp only [List.length_nil, List.length_drop, List.length_cons] at hlen
  have htk : ([65, 66] : List Byte).take d = [65, 66] :=
    List.take_of_length_le (by simp; omega)
  rw [htk] at h2
  cases h2

/-- C6 amended: after every `socket_read_text` and `socket_read_binary`
call entered with a clean error flag, the buffer length satisfies
`0 ≤ position ≤ N` (i.e. at most `capacity - 1` counting the reserved
filler slot), and the bytes `[0, position)` together with the bytes the
call handed out account exactly, in order, for the initial buffer plus all
bytes received: on success `[0, position)` is exactly the
received-but-unreturned tail, while after a failed call the buffer is empty
and the partially accumulated bytes are discarded rather than retained. -/
theorem readBuffer_invariant (N : Nat) (term : List Byte) (L : Nat)
    (buf0 stream : List Byte) (tm : Nat) (evs : List RdEvent)
    (hb : buf0.length ≤ N) :
    (∃ d g,
      (socket_read_text N term 0 buf0 stream tm evs).2.2.2.1 = stream.drop d ∧
      g ++ (socket_read_text N term 0 buf0 stream tm evs).2.2.1 =
        buf0 ++ stream.take d ∧
      (∀ bs, (socket_read_text N term 0 buf0 stream tm evs).1 = some bs → bs = g) ∧
      ((socket_read_text N term 0 buf0 stream tm evs).2.1 ≠ 0 →
        (socket_read_text N term 0 buf0 stream tm evs).2.2.1 = [] ∧
        (socket_read_text N term 0 buf0 stream tm evs).1 = none) ∧
      (socket_read_text N term 0 buf0 stream tm evs).2.2.1.length ≤ N) ∧
    (∃ d,
      (socket_read_binary N L buf0 stream tm evs).2.2.2.2.1 = stream.drop d ∧
      (∀ bs, (socket_read_binary N L buf0 stream tm evs).1 = some bs →
        bs ++ (socket_read_binary N L buf0 stream tm evs).2.2.2.1 =
          buf0 ++ stream.take d) ∧
      ((socket_read_binary N L buf0 stream tm evs).2.2.1 ≠ 0 →
        (socket_read_binary N L buf0 stream tm evs).2.2.2.1 = [] ∧
        (socket_read_binary N L buf0 stream tm evs).1 = none) ∧
      (socket_read_binary N L buf0 stream tm evs).2.2.2.1.length ≤ N) := by
  constructor
  · by_cases hb0 : buf0 = []
    · subst hb0
      obtain ⟨res, err, buf', s', evs', d, g, heq, hs', hg, hres, herr, hbuf⟩ :=
        readTextGo_inv N term tm evs [] stream
      have hun : socket_read_text N term 0 [] stream tm evs = (res, err, buf', s', evs') := by
        simp only [socket_read_text, if_pos rfl]
        exact heq
      rw [hun]
      exact ⟨d, g, hs', hg, hres, herr, hbuf⟩
    · rcases hm : strstrIdx term (cString buf0) with _ | i
      · obtain ⟨res, err, buf', s', evs', d, g, heq, hs', hg, hres, herr, hbuf⟩ :=
          readTextGo_inv N term tm evs buf0 stream
        have hun : socket_read_text N term 0 buf0 stream tm evs =
            (res, err, buf', s', evs') := by
          simp only [socket_read_text, if_neg hb0, hm]
          exact heq
        rw [hun]
        exact ⟨d, g, hs', hg, hres, herr, hbuf⟩
      · have hun : socket_read_text N term 0 buf0 stream tm evs =
            (if (0 : Err) = 0 ∧ buf0.take (i + term.length) ≠ [] then
              some (buf0.take (i + term.length)) else none, 0,
              buf0.drop (i + term.length), stream, evs) := by
          simp only [socket_read_text, if_neg hb0, hm]
        rw [hun]
        refine ⟨0, buf0.take (i + term.length), by simp, ?_, ?_, ?_, ?_⟩
        · simp [List.take_append_drop]
        · intro bs h
          split at h
          · cases h
            rfl
          · cases h
        · intro h
          exact absurd rfl h
        · rw [List.length_drop]
          omega
  · by_cases hL : L = 0
    · subst hL
      have hun : socket_read_binary N 0 buf0 stream tm evs =
          (none, 0, 0, buf0, stream, evs) := rfl
      rw [hun]
      refine ⟨0, by simp, ?_, ?_, hb⟩
      · intro bs h
        cases h
      · intro h
        exact absurd rfl h
    · by_cases hbe : buf0 = []
      · subst hbe
        obtain ⟨res, actual, err, s', evs', d, heq, hs', hsucc, hfail⟩ :=
          readBinGo_spec N L tm evs [] stream (by simp; omega)
        have hun : socket_read_binary N L [] stream tm evs =
            (res, actual, err, [], s', evs') := by
          simp only [socket_read_binary, if_neg hL, if_pos rfl]
          exact heq
        rw [hun]
        refine ⟨d, hs', ?_, ?_, by simp⟩
        · intro bs h
          by_cases he : err = 0
          · obtain ⟨hres, _, _⟩ := hsucc he
            rw [hres] at h
            cases h
            simp
          · obtain ⟨hres, _⟩ := hfail he
            rw [hres] at h
            cases h
        · intro h
          exact ⟨rfl, (hfail h).1⟩
      · by_cases hble : L ≤ buf0.length
        · have hun : socket_read_binary N L buf0 stream tm evs =
              (some buf0, buf0.length, 0, [], stream, evs) := by
            simp only [socket_read_binary, if_neg hL, if_neg hbe, if_pos hble]
          rw [hun]
          refine ⟨0, by simp, ?_, ?_, by simp⟩
          · intro bs h
            cases h
            simp
          · intro h
            exact absurd rfl h
        · obtain ⟨res, actual, err, s', evs', d, heq, hs', hsucc, hfail⟩ :=
            readBinGo_spec N L tm evs buf0 stream (by omega)
          have hun : socket_read_binary N L buf0 stream tm evs =
              (res, actual, err, [], s', evs') := by
            simp only [socket_read_binary, if_neg hL, if_neg hbe, if_neg hble]
            exact heq
          rw [hun]
          refine ⟨d, hs', ?_, ?_, by simp⟩
          · intro bs h
            by_cases he : err = 0
            · obtain ⟨hres, _, _⟩ := hsucc he
              rw [hres] at h
              cases h
              simp
            · obtain ⟨hres, _⟩ := hfail he
              rw [hres] at h
              cases h
          · intro h
            exact ⟨rfl, (hfail h).1⟩

/-- C6 witness: a concrete successful `socket_read_text` run through
`readBuffer_invariant` — the final buffer respects the capacity bound. -/
theorem readBuffer_invariant_witness :
    (socket_read_text 4 [10] 0 [1] [2, 3] 0 [goodEv 0]).2.2.1.length ≤ 4 := by
  obtain ⟨d, g, _, _, _, _, h5⟩ :=
    (readBuffer_invariant 4 [10] 2 [1] [2, 3] 0 [goodEv 0] (by decide)).1
  exact h5

/-- C1 counterexample: byte sequence `B = [65, 13, 10]` contains the
two-byte terminator `[13, 10]` exactly once (first occurrence at offset 1,
found by `strstrIdx` when `B` is searched whole), so the claim demands the
result `some B.take 3 = some B`.  But when the chunking splits the
terminator — chunk `[65, 13]` then chunk `[10]` — `strstr` never sees the
two terminator bytes in one buffer load, each chunk is consumed whole, and
the call ends with no data (waiting for more input until the timeout). -/
theorem readText_split_terminator_cex :
    strstrIdx [13, 10] [65, 13, 10] = some 1 ∧
    (socket_read_text 8 [13, 10] 0 [] [65, 13, 10] 0 [goodEv 1, goodEv 9]).1 ≠
      some (([65, 13, 10] : List Byte).take (1 + [13, 10].length)) := by
  decide

/-- Core of the amended C1: running the refill-and-scan loop over
error-free deliveries whose chunks are `chunksOf N s ks`, if the terminator
occurs in the stream exactly once and that occurrence lies entirely within
one delivered chunk, the loop returns the accumulator extended by exactly
the stream bytes up to and including the occurrence. -/
theorem readTextGo_first_match (N : Nat) (term : List Byte) (tm : Nat)
    (hN : 1 ≤ N) (hterm : term ≠ []) :
    ∀ (ks : List Nat) (s acc : List Byte) (p : Nat),
    (∀ b ∈ s, b ≠ 0) →
    occursAt s p term →
    (∀ q, occursAt s q term → q = p) →
    (∃ j, j < (chunksOf N s ks).length ∧
      sumLen ((chunksOf N s ks).take j) ≤ p ∧
      p + term.length ≤ sumLen ((chunksOf N s ks).take (j + 1))) →
    (readTextGo N term tm acc s (ks.map goodEv)).1 =
      some (acc ++ s.take (p + term.length)) := by
  have hterm1 : 1 ≤ term.length := List.length_pos.mpr hterm
  intro ks
  induction ks with
  | nil =>
    intro s acc p hz hocc huniq hj
    obtain ⟨j, hjlen, _, _⟩ := hj
    simp [chunksOf] at hjlen
  | cons k ks ih =>
    intro s acc p hz hocc huniq hj
    by_cases hs : s = []
    · subst hs
      obtain ⟨j, hjlen, hj1, hj2⟩ := hj
      have h0 := sumLen_chunksOf_nil N (k :: ks)
      have hle := sumLen_take_le (chunksOf N ([] : List Byte) (k :: ks)) (j + 1)
      omega
    · have hslen : 1 ≤ s.length := by
        cases s with
        | nil => exact absurd rfl hs
        | cons a t => simp
      obtain ⟨n, hn⟩ : ∃ n, min (k + 1) (min N s.length) = n := ⟨_, rfl⟩
      have hn1 : 1 ≤ n := by omega
      have hnles : n ≤ s.length := by omega
      have hread : socket_read s N tm (goodEv k) = (s.take n, 0, s.drop n) := by
        have hnz : ¬ (n = 0) := by omega
        simp [socket_read, goodEv, socket_select, socket_get_error, hn, hnz]
      have hcz : cString (s.take n) = s.take n :=
        cString_eq_self (fun b hb => hz b (List.take_subset n s hb))
      have hch : chunksOf N s (k :: ks) = s.take n :: chunksOf N (s.drop n) ks := by
        simp only [chunksOf]
        rw [hn]
      have hlen_c : (s.take n).length = n := by
        rw [List.length_take]
        omega
      by_cases hfit : p + term.length ≤ n
      · have hps : p + term.length ≤ s.length := by omega
        have hocc_c : term <+: (s.take n).drop p := occursAt_take hocc hfit
        obtain ⟨i, hip, hieq⟩ := strstrIdx_complete term (s.take n) p hocc_c
        obtain ⟨hi1, _⟩ := strstrIdx_sound term (s.take n) i hieq
        have hip2 : i = p := huniq i (occursAt_of_take hi1)
        rw [hip2] at hieq
        have hres : readTextGo N term tm acc s (goodEv k :: ks.map goodEv) =
            (if acc ++ (s.take n).take (p + term.length) = [] then none
             else some (acc ++ (s.take n).take (p + term.length)), 0,
             (s.take n).drop (p + term.length), s.drop n, ks.map goodEv) := by
          simp only [readTextGo, hread]
          rw [if_neg (by simp), hcz, hieq]
        have htt : (s.take n).take (p + term.length) = s.take (p + term.length) := by
          rw [List.take_take]
          congr 1
          omega
        have hne : acc ++ s.take (p + term.length) ≠ [] := by
          intro hcon
          have hl := congrArg List.length hcon
          rw [List.length_append, List.length_take] at hl
          simp only [List.length_nil] at hl
          omega
        rw [List.map_cons, hres]
        dsimp only
        rw [htt, if_neg hne]
      · obtain ⟨j, hjlen, hj1, hj2⟩ := hj
        rw [hch] at hjlen hj1 hj2
        cases j with
        | zero =>
          exfalso
          simp only [Nat.zero_add] at hj1 hj2
          have e0 : sumLen ((s.take n :: chunksOf N (s.drop n) ks).take 1) = n := by
            rw [List.take_succ_cons, List.take_zero, sumLen_cons]
            simp [sumLen, hlen_c]
          omega
        | succ j' =>
          have e1 : sumLen ((s.take n :: chunksOf N (s.drop n) ks).take (j' + 1)) =
              n + sumLen ((chunksOf N (s.drop n) ks).take j') := by
            rw [List.take_succ_cons, sumLen_cons, hlen_c]
          have e2 : sumLen ((s.take n :: chunksOf N (s.drop n) ks).take (j' + 1 + 1)) =
              n + sumLen ((chunksOf N (s.drop n) ks).take (j' + 1)) := by
            rw [List.take_succ_cons, sumLen_cons, hlen_c]
          have hnp : n ≤ p := by omega
          have hnone : strstrIdx term (s.take n) = none := by
            rcases hcase : strstrIdx term (s.take n) with _ | i
            · rfl
            · exfalso
              obtain ⟨hi1, _⟩ := strstrIdx_sound term (s.take n) i hcase
              have hip : i = p := huniq i (occursAt_of_take hi1)
              rw [hip] at hi1
              have := occursAt_length hterm (l := s.take n) hi1
              rw [hlen_c] at this
              omega
          have hres : readTextGo N term tm acc s (goodEv k :: ks.map goodEv) =
              readTextGo N term tm (acc ++ s.take n) (s.drop n) (ks.map goodEv) := by
            simp only [readTextGo, hread]
            rw [if_neg (by simp), hcz, hnone]
          rw [List.map_cons, hres]
          have hocc2 : occursAt (s.drop n) (p - n) term := by
            rw [occursAt_drop]
            have heqp : n + (p - n) = p := by omega
            rw [heqp]
            exact hocc
          have huniq2 : ∀ q, occursAt (s.drop n) q term → q = p - n := by
            intro q hq
            rw [occursAt_drop] at hq
            have := huniq _ hq
            omega
          have hz2 : ∀ b ∈ s.drop n, b ≠ 0 := fun b hb => hz b (List.drop_subset n s hb)
          have hj2' : ∃ jj, jj < (chunksOf N (s.drop n) ks).length ∧
              sumLen ((chunksOf N (s.drop n) ks).take jj) ≤ p - n ∧
              p - n + term.length ≤ sumLen ((chunksOf N (s.drop n) ks).take (jj + 1)) := by
            refine ⟨j', ?_, by omega, by omega⟩
            simpa using hjlen
          have hres2 := ih (s.drop n) (acc ++ s.take n) (p - n) hz2 hocc2 huniq2 hj2'
          rw [hres2]
          congr 1
          rw [List.append_assoc]
          congr 1
          have heqp2 : p + term.length = n + (p - n + term.length) := by omega
          conv_rhs => rw [heqp2, List.take_add]

/-- C1 amended: for every byte sequence of nonzero bytes containing the
nonempty terminator exactly once, and every splitting of it into chunks
delivered by successive error-free receive calls such that the occurrence
of the terminator lies entirely within a single delivered chunk,
`socket_read_text` returns exactly the bytes up to and including that
occurrence.  (When the terminator is split across two receive chunks the
match is missed and the call does not return those bytes — see the
counterexample.) -/
theorem readText_unsplit_terminator_exact (N : Nat) (term stream : List Byte)
    (tm : Nat) (ks : List Nat) (p : Nat)
    (hN : 1 ≤ N) (hterm : term ≠ [])
    (hz : ∀ b ∈ stream, b ≠ 0)
    (hocc : occursAt stream p term)
    (huniq : ∀ q, occursAt stream q term → q = p)
    (hsplit : ∃ j, j < (chunksOf N stream ks).length ∧
      sumLen ((chunksOf N stream ks).take j) ≤ p ∧
      p + term.length ≤ sumLen ((chunksOf N stream ks).take (j + 1))) :
    (socket_read_text N term 0 [] stream tm (ks.map goodEv)).1 =
      some (stream.take (p + term.length)) := by
  have h := readTextGo_first_match N term tm hN hterm ks stream [] p hz hocc huniq hsplit
  simpa [socket_read_text] using h

/-- C1 witness: stream `[65, 13, 10, 66]` with terminator `[13, 10]`
occurring once at offset 1, delivered in a single chunk: `read_text`
returns exactly `[65, 13, 10]`. -/
theorem readText_unsplit_terminator_exact_witness :
    (socket_read_text 8 [13, 10] 0 [] [65, 13, 10, 66] 0 [goodEv 9]).1 =
      some [65, 13, 10] := by
  have huniq : ∀ q, occursAt [65, 13, 10, 66] q [13, 10] → q = 1 := by
    intro q hq
    have hl := occursAt_length (by decide) hq
    have hq2 : q ≤ 2 := by
      simp only [List.length_cons, List.length_nil] at hl
      omega
    interval_cases q
    · exact absurd hq (by decide)
    · rfl
    · exact absurd hq (by decide)
  have h := readText_unsplit_terminator_exact 8 [13, 10] [65, 13, 10, 66] 0 [9] 1
    (by decide) (by decide) (by decide) (by decide) huniq
    ⟨0, by decide, by decide, by decide⟩
  rw [List.map_cons, List.map_nil] at h
  rw [h]
  decide
